import Mathlib

/-!
Verification of the easing-sequence library (src/src/lib.rs).

The `easer!` macro stamps out, for each curve, a struct with fields
`start : f64`, `dist : f64`, `step : u64`, `steps : u64`, a constructor
`f(start, end, steps)` setting `dist := end - start` and `step := 0`,
and an `Iterator::next` that increments `step`, returns `None` when
`step > steps` and otherwise `Some(shape(step as f64 / steps as f64) * dist + start)`.

Embedding choices:
* `f64` values are modelled as real numbers (the spec describes them as reals);
* the `u64` counters are modelled as naturals with arithmetic reduced
  modulo `2 ^ 64`, matching wrapping-mode unsigned overflow, so that the
  behaviour after very many `next` calls is captured faithfully;
* the sixteen shape closures are transcribed literally, with `exp2 y`
  rendered as the real power `2 ^ y` and `FRAC_PI_2` as `π / 2`.
-/

noncomputable section

open Real

/-- The modulus of the `u64` type: counters wrap at `2 ^ 64`. -/
def u64size : ℕ := 2 ^ 64

/-- The struct generated by the `easer!` macro:
`start: f64, dist: f64, step: u64, steps: u64`. -/
structure EaserState where
  start : ℝ
  dist : ℝ
  step : ℕ
  steps : ℕ

/-- The constructor generated by the `easer!` macro:
`$t {start: start, dist: end-start, step: 0, steps: steps}`. -/
def mkEaser (start stop : ℝ) (steps : ℕ) : EaserState :=
  { start := start, dist := stop - start, step := 0, steps := steps }

/-- `Iterator::next` from the `easer!` macro, parametrised by the shape
closure `f`.  It increments `self.step` (a wrapping `u64` increment),
returns `None` if `self.step > self.steps`, and otherwise
`Some(f(self.step as f64 / self.steps as f64) * self.dist + self.start)`.
The returned pair is (produced item, updated struct). -/
def nextE (f : ℝ → ℝ) (s : EaserState) : Option ℝ × EaserState :=
  let step1 := (s.step + 1) % u64size
  if step1 > s.steps then
    (none, { s with step := step1 })
  else
    (some (f ((step1 : ℝ) / (s.steps : ℝ)) * s.dist + s.start),
     { s with step := step1 })

/-- The struct after `k` calls to `next`, starting from `c`. -/
def stateAfter (f : ℝ → ℝ) (c : EaserState) : ℕ → EaserState
  | 0 => c
  | k + 1 => (nextE f (stateAfter f c k)).2

/-- The item produced by the `(k+1)`-th call to `next` on a sequence that
started in state `c` (0-indexed: `outAt f c 0` is the first call's output). -/
def outAt (f : ℝ → ℝ) (c : EaserState) (k : ℕ) : Option ℝ :=
  (nextE f (stateAfter f c k)).1

/-- The sixteen named curves of the library. -/
inductive Curve
  | linear
  | quad_in
  | quad_out
  | quad_inout
  | cubic_in
  | cubic_out
  | cubic_inout
  | quartic_in
  | quartic_out
  | quartic_inout
  | sin_in
  | sin_out
  | sin_inout
  | exp_in
  | exp_out
  | exp_inout
deriving DecidableEq

/-- The shape closure of each curve, transcribed from the `easer!`
invocations in src/src/lib.rs. -/
def Curve.shape : Curve → ℝ → ℝ
  | .linear => fun x => x
  | .quad_in => fun x => x * x
  | .quad_out => fun x => -(x * (x - 2))
  | .quad_inout => fun x =>
      if x < 0.5 then 2 * x * x else (-2 * x * x) + (4 * x) - 1
  | .cubic_in => fun x => x * x * x
  | .cubic_out => fun x =>
      let y := x - 1
      y * y * y + 1
  | .cubic_inout => fun x =>
      if x < 0.5 then 4 * x * x * x
      else
        let y := (2 * x) - 2
        0.5 * y * y * y + 1
  | .quartic_in => fun x => x * x * x * x
  | .quartic_out => fun x =>
      let y := x - 1
      y * y * y * (1 - x) + 1
  | .quartic_inout => fun x =>
      if x < 0.5 then 8 * x * x * x * x
      else
        let y := x - 1
        (-8) * y * y * y * y + 1
  | .sin_in => fun x => Real.sin ((x - 1) * (π / 2)) + 1
  | .sin_out => fun x => Real.sin (x * (π / 2))
  | .sin_inout => fun x =>
      if x < 0.5 then 0.5 * (1 - Real.sqrt (1 - 4 * (x * x)))
      else 0.5 * (Real.sqrt (-((2 * x) - 3) * ((2 * x) - 1)) + 1)
  | .exp_in => fun x =>
      if x = 0 then 0 else (2 : ℝ) ^ (10 * (x - 1))
  | .exp_out => fun x =>
      if x = 1 then 1 else 1 - (2 : ℝ) ^ (-10 * x)
  | .exp_inout => fun x =>
      if x = 1 then 1
      else if x = 0 then 0
      else if x < 0.5 then 0.5 * (2 : ℝ) ^ ((20 * x) - 10)
      else -0.5 * (2 : ℝ) ^ ((-20 * x) + 10) + 1

/-- The curves whose shape is a single-direction (`*_in` / `*_out` / linear)
easing, as opposed to the `*_inout` variants. -/
def Curve.isSingleDirection : Curve → Bool
  | .linear | .quad_in | .quad_out | .cubic_in | .cubic_out
  | .quartic_in | .quartic_out | .sin_in | .sin_out | .exp_in | .exp_out => true
  | _ => false

/-- The `*_inout` curves. -/
def Curve.isInOut : Curve → Bool
  | .quad_inout | .cubic_inout | .quartic_inout | .sin_inout | .exp_inout => true
  | _ => false

lemma u64size_pos : 0 < u64size := by
  unfold u64size
  positivity

lemma nextE_state (f : ℝ → ℝ) (s : EaserState) :
    (nextE f s).2 = { s with step := (s.step + 1) % u64size } := by
  unfold nextE
  by_cases h : (s.step + 1) % u64size > s.steps <;> simp [h]

lemma nextE_out (f : ℝ → ℝ) (s : EaserState) :
    (nextE f s).1 =
      if (s.step + 1) % u64size > s.steps then none
      else some (f ((((s.step + 1) % u64size : ℕ) : ℝ) / (s.steps : ℝ)) * s.dist
                  + s.start) := by
  unfold nextE
  by_cases h : (s.step + 1) % u64size > s.steps <;> simp [h]

lemma one_mod_u64size : 1 % u64size = 1 :=
  Nat.mod_eq_of_lt (by unfold u64size; norm_num)

lemma mod_succ_mod (k : ℕ) : (k % u64size + 1) % u64size = (k + 1) % u64size := by
  conv_rhs => rw [Nat.add_mod, one_mod_u64size]

lemma stateAfter_mk (f : ℝ → ℝ) (s e : ℝ) (n k : ℕ) :
    stateAfter f (mkEaser s e n) k =
      { start := s, dist := e - s, step := k % u64size, steps := n } := by
  induction k with
  | zero =>
      simp [stateAfter, mkEaser, Nat.zero_mod]
  | succ k ih =>
      rw [stateAfter, ih, nextE_state]
      simp [mod_succ_mod]

lemma outAt_eq (f : ℝ → ℝ) (s e : ℝ) (n k : ℕ) :
    outAt f (mkEaser s e n) k =
      if (k + 1) % u64size > n then none
      else some (f ((((k + 1) % u64size : ℕ) : ℝ) / (n : ℝ)) * (e - s) + s) := by
  unfold outAt
  rw [stateAfter_mk, nextE_out]
  simp [mod_succ_mod]

/-- C1: For every curve constructor (arbitrary shape closure `f`) and every
sequence built with `total_steps ≥ 1`, each call to `next` first increments
`current_step`; if `current_step > total_steps` it returns no value, and
otherwise it returns `shape_fn(current_step / total_steps) * distance + start`,
where `distance = end - start` was computed once at construction. -/
theorem next_call_contract (f : ℝ → ℝ) (st : EaserState) (s e : ℝ) (n : ℕ)
    (_h1 : 1 ≤ st.steps) (h2 : st.step + 1 < u64size) :
    (mkEaser s e n).dist = e - s ∧ (mkEaser s e n).step = 0 ∧
    (nextE f st).2.step = st.step + 1 ∧
    (st.step + 1 > st.steps → (nextE f st).1 = none) ∧
    (st.step + 1 ≤ st.steps →
      (nextE f st).1 =
        some (f (((st.step + 1 : ℕ) : ℝ) / (st.steps : ℝ)) * st.dist + st.start)) := by
  have hm : (st.step + 1) % u64size = st.step + 1 := Nat.mod_eq_of_lt h2
  refine ⟨rfl, rfl, ?_, ?_, ?_⟩
  · rw [nextE_state, hm]
  · intro h
    rw [nextE_out, hm, if_pos h]
  · intro h
    rw [nextE_out, hm, if_neg (by omega)]

theorem next_call_contract_witness :
    (nextE (fun x => x) (EaserState.mk 0 1 0 2)).2.step = 0 + 1 ∧
    (nextE (fun x => x) (EaserState.mk 0 1 0 2)).1 =
      some ((((0 + 1 : ℕ) : ℝ) / ((2 : ℕ) : ℝ)) * 1 + 0) := by
  have h := next_call_contract (fun x => x) (EaserState.mk 0 1 0 2) 0 1 2
    (by norm_num) (by norm_num [u64size])
  exact ⟨h.2.2.1, h.2.2.2.2 (by norm_num)⟩

/-- C9: each call to `next` mutates only the step counter field; the
`start`, `dist` and `steps` fields are unchanged by every call (and the
model is pure state-passing: no global or shared state exists). -/
theorem next_mutates_only_step (f : ℝ → ℝ) (st : EaserState) :
    (nextE f st).2.start = st.start ∧
    (nextE f st).2.dist = st.dist ∧
    (nextE f st).2.steps = st.steps ∧
    (nextE f st).2.step = (st.step + 1) % u64size := by
  rw [nextE_state]
  exact ⟨rfl, rfl, rfl, rfl⟩

/-- C10: determinism — the item produced by the `(k+1)`-th call to `next`
on a sequence constructed from `(start, end, steps)` is a fixed function of
the shape closure, the three construction arguments and the number of calls
made so far, and nothing else: it equals this closed form. -/
theorem output_depends_only_on_construction (f : ℝ → ℝ) (s e : ℝ) (n k : ℕ) :
    outAt f (mkEaser s e n) k =
      if (k + 1) % u64size > n then none
      else some (f ((((k + 1) % u64size : ℕ) : ℝ) / (n : ℝ)) * (e - s) + s) :=
  outAt_eq f s e n k

/-- C7: for every curve, if `start = end` then every produced value equals
`start` (the distance is zero, so the shape coefficient is scaled away). -/
theorem equal_endpoints_constant (c : Curve) (s : ℝ) (n i : ℕ)
    (_h1 : 1 ≤ i) (h2 : i ≤ n) (h3 : n < u64size) :
    outAt c.shape (mkEaser s s n) (i - 1) = some s := by
  rw [outAt_eq]
  have hi : i - 1 + 1 = i := by omega
  have him : i % u64size = i := Nat.mod_eq_of_lt (by omega)
  rw [hi, him, if_neg (by omega)]
  simp

theorem equal_endpoints_constant_witness :
    outAt (Curve.shape .quad_in) (mkEaser 3 3 2) 0 = some 3 := by
  have h := equal_endpoints_constant .quad_in 3 2 1
    (by norm_num) (by norm_num) (by norm_num [u64size])
  exact h

/-- C4: the `i`-th value produced by `linear(start, end, steps)`, for
`1 ≤ i ≤ steps`, equals `start + (end - start) * i / steps`: the sequence is
an arithmetic progression. -/
theorem linear_arithmetic_progression (s e : ℝ) (n i : ℕ)
    (h1 : 1 ≤ i) (h2 : i ≤ n) (h3 : n < u64size) :
    outAt (Curve.shape .linear) (mkEaser s e n) (i - 1) =
      some (s + (e - s) * (i : ℝ) / (n : ℝ)) := by
  rw [outAt_eq]
  have hi : i - 1 + 1 = i := by omega
  have him : i % u64size = i := Nat.mod_eq_of_lt (by omega)
  rw [hi, him, if_neg (by omega)]
  simp only [Curve.shape]
  congr 1
  ring

theorem linear_arithmetic_progression_witness :
    outAt (Curve.shape .linear) (mkEaser 0 1 2) 0 =
      some (0 + (1 - 0) * ((1 : ℕ) : ℝ) / ((2 : ℕ) : ℝ)) := by
  have h := linear_arithmetic_progression 0 1 2 1
    (by norm_num) (by norm_num) (by norm_num [u64size])
  exact h

/-- C2 as stated is false: after exhaustion the `u64` step counter keeps
incrementing, wraps to `0` at the `2 ^ 64`-th call, and the exhaustion test
`step > steps` then fails, so a value is produced again.  Concretely, with
`linear(0, 5, 1)` the first call yields a value, the second call yields none
(exhaustion), yet the `2 ^ 64`-th call yields `some 0`. -/
theorem exhaustion_not_permanent :
    outAt (Curve.shape .linear) (mkEaser 0 5 1) 0 = some 5 ∧
    outAt (Curve.shape .linear) (mkEaser 0 5 1) 1 = none ∧
    outAt (Curve.shape .linear) (mkEaser 0 5 1) (2 ^ 64 - 1) = some 0 := by
  refine ⟨?_, ?_, ?_⟩ <;> rw [outAt_eq]
  · rw [if_neg (by rw [one_mod_u64size]; omega)]
    rw [one_mod_u64size]
    norm_num [Curve.shape]
  · rw [if_pos]
    have h2 : (1 + 1) % u64size = 2 := Nat.mod_eq_of_lt (by unfold u64size; norm_num)
    omega
  · have h0 : (2 ^ 64 - 1 + 1) % u64size = 0 := by
      have : 2 ^ 64 - 1 + 1 = 2 ^ 64 := by norm_num
      rw [this]
      unfold u64size
      exact Nat.mod_self _
    rw [h0, if_neg (by omega)]
    norm_num [Curve.shape]

/-- C2 (amended): for every curve and every `N` with `1 ≤ N < 2 ^ 64`, a
sequence constructed with `steps = N` yields a value on each of its first `N`
calls and no value on every later call, as long as the total number of calls
stays below `2 ^ 64`; at the `2 ^ 64`-th call the `u64` counter wraps and
values are produced again. -/
theorem yields_n_values_then_none_before_wrap (c : Curve) (s e : ℝ) (N : ℕ)
    (_h1 : 1 ≤ N) (h2 : N < u64size) :
    (∀ k, k < N → (outAt c.shape (mkEaser s e N) k).isSome = true) ∧
    (∀ k, N ≤ k → k + 1 < u64size → outAt c.shape (mkEaser s e N) k = none) := by
  constructor
  · intro k hk
    rw [outAt_eq, if_neg]
    · rfl
    · have hm : (k + 1) % u64size = k + 1 := Nat.mod_eq_of_lt (by omega)
      omega
  · intro k hk hk2
    rw [outAt_eq, if_pos]
    have hm : (k + 1) % u64size = k + 1 := Nat.mod_eq_of_lt hk2
    omega

theorem yields_n_values_then_none_before_wrap_witness :
    (outAt (Curve.shape .linear) (mkEaser 0 1 1) 0).isSome = true ∧
    outAt (Curve.shape .linear) (mkEaser 0 1 1) 1 = none := by
  have h := yields_n_values_then_none_before_wrap .linear 0 1 1
    (le_refl 1) (by norm_num [u64size])
  exact ⟨h.1 0 (by norm_num), h.2 1 (by norm_num) (by norm_num [u64size])⟩

/-- C8 as stated is false: with `total_steps = 0` every call among the first
`2 ^ 64 - 1` returns no value, but at the `2 ^ 64`-th call the wrapped counter
`0` fails the test `0 > 0`, so the shape function is evaluated (on `0/0`) and
a value is produced.  With `linear(7, 9, 0)` the first call yields none, yet
the `2 ^ 64`-th call yields a value. -/
theorem zero_steps_not_permanently_empty :
    outAt (Curve.shape .linear) (mkEaser 7 9 0) 0 = none ∧
    outAt (Curve.shape .linear) (mkEaser 7 9 0) (2 ^ 64 - 1) ≠ none := by
  constructor
  · rw [outAt_eq, if_pos (by rw [one_mod_u64size]; omega)]
  · rw [outAt_eq]
    have h0 : (2 ^ 64 - 1 + 1) % u64size = 0 := by
      have : 2 ^ 64 - 1 + 1 = 2 ^ 64 := by norm_num
      rw [this]
      unfold u64size
      exact Nat.mod_self _
    rw [h0, if_neg (by omega)]
    exact Option.some_ne_none _

/-- C8 (amended): for every curve (arbitrary shape closure `f`), a sequence
constructed with `total_steps = 0` produces no output on its first call and on
every subsequent call while the total number of calls stays below `2 ^ 64`;
on those calls the output is `none` uniformly in `f`, so the shape function
(and the division feeding it) is never consulted.  At the `2 ^ 64`-th call the
wrapped counter passes the exhaustion test and the division `0 / 0` is
reached. -/
theorem zero_steps_no_output_before_wrap (f : ℝ → ℝ) (s e : ℝ) (k : ℕ)
    (h : k + 1 < u64size) :
    outAt f (mkEaser s e 0) k = none := by
  rw [outAt_eq, if_pos]
  have hm : (k + 1) % u64size = k + 1 := Nat.mod_eq_of_lt h
  omega

theorem zero_steps_no_output_before_wrap_witness :
    outAt (fun x => x) (mkEaser 7 9 0) 0 = none :=
  zero_steps_no_output_before_wrap (fun x => x) 7 9 0 (by norm_num [u64size])

lemma shape_at_one (c : Curve) : c.shape 1 = 1 := by
  cases c <;>
    norm_num [Curve.shape, Real.sin_zero, Real.sin_pi_div_two, Real.sqrt_one,
      Real.rpow_zero]

/-- C3: for every curve, every `start`, `end` and `total_steps ≥ 1`, the final
(`total_steps`-th) value produced by the sequence equals `end` exactly (every
shape function maps progress `1` to coefficient `1`). -/
theorem final_value_is_end (c : Curve) (s e : ℝ) (n : ℕ)
    (h1 : 1 ≤ n) (h2 : n < u64size) :
    outAt c.shape (mkEaser s e n) (n - 1) = some e := by
  rw [outAt_eq]
  have hn : n - 1 + 1 = n := by omega
  have hm : n % u64size = n := Nat.mod_eq_of_lt h2
  rw [hn, hm, if_neg (lt_irrefl n)]
  have hn0 : (n : ℝ) ≠ 0 := Nat.cast_ne_zero.mpr (by omega)
  rw [div_self hn0, shape_at_one]
  congr 1
  ring

theorem final_value_is_end_witness :
    outAt (Curve.shape .linear) (mkEaser 0 2 1) 0 = some 2 := by
  have h := final_value_is_end .linear 0 2 1 (le_refl 1) (by norm_num [u64size])
  exact h

lemma shape_at_half (c : Curve) (hc : c.isInOut = true) : c.shape (1 / 2) = 1 / 2 := by
  cases c <;> simp only [Curve.isInOut, Bool.false_eq_true] at hc <;>
    norm_num [Curve.shape, Real.sqrt_zero, Real.rpow_zero]

/-- C6: for every `*_inout` curve, every `start`, `end` and every even step
count `2 * m` with `m ≥ 1`, the value produced at step `m` (the half-way
step) equals the midpoint `(start + end) / 2` exactly. -/
theorem inout_midpoint (c : Curve) (hc : c.isInOut = true) (s e : ℝ) (m : ℕ)
    (h1 : 1 ≤ m) (h2 : 2 * m < u64size) :
    outAt c.shape (mkEaser s e (2 * m)) (m - 1) = some ((s + e) / 2) := by
  rw [outAt_eq]
  have hm1 : m - 1 + 1 = m := by omega
  have hm2 : m % u64size = m := Nat.mod_eq_of_lt (by omega)
  rw [hm1, hm2, if_neg (by omega)]
  have hm0 : ((m : ℕ) : ℝ) ≠ 0 := Nat.cast_ne_zero.mpr (by omega)
  have hx : ((m : ℕ) : ℝ) / ((2 * m : ℕ) : ℝ) = 1 / 2 := by
    push_cast
    field_simp
    ring
  rw [hx, shape_at_half c hc]
  congr 1
  ring

theorem inout_midpoint_witness :
    outAt (Curve.shape .quad_inout) (mkEaser 0 1 (2 * 1)) 0 = some ((0 + 1) / 2) := by
  have h := inout_midpoint .quad_inout rfl 0 1 1 (le_refl 1) (by norm_num [u64size])
  exact h

lemma shape_mono_single (c : Curve) (hc : c.isSingleDirection = true)
    (x y : ℝ) (hx : 0 ≤ x) (hxy : x ≤ y) (hy : y ≤ 1) :
    c.shape x ≤ c.shape y := by
  have hy0 : 0 ≤ y := hx.trans hxy
  have hx1 : x ≤ 1 := hxy.trans hy
  cases c
  case linear => simpa only [Curve.shape] using hxy
  case quad_in =>
    simp only [Curve.shape]
    nlinarith
  case quad_out =>
    simp only [Curve.shape]
    nlinarith
  case quad_inout => simp [Curve.isSingleDirection] at hc
  case cubic_in =>
    simp only [Curve.shape]
    nlinarith [sq_nonneg (x + y), sq_nonneg x, sq_nonneg y]
  case cubic_out =>
    simp only [Curve.shape]
    nlinarith [sq_nonneg ((x - 1) + (y - 1)), sq_nonneg (x - 1), sq_nonneg (y - 1)]
  case cubic_inout => simp [Curve.isSingleDirection] at hc
  case quartic_in =>
    simp only [Curve.shape]
    have key : x ^ 4 ≤ y ^ 4 := pow_le_pow_left₀ hx hxy 4
    nlinarith [key]
  case quartic_out =>
    simp only [Curve.shape]
    have key : (1 - y) ^ 4 ≤ (1 - x) ^ 4 :=
      pow_le_pow_left₀ (by linarith) (by linarith) 4
    nlinarith [key]
  case quartic_inout => simp [Curve.isSingleDirection] at hc
  case sin_in =>
    simp only [Curve.shape]
    have hpi : (0 : ℝ) < π / 2 := by positivity
    have h1 : -(π / 2) ≤ (x - 1) * (π / 2) := by nlinarith
    have h2 : (y - 1) * (π / 2) ≤ π / 2 := by nlinarith
    have h3 : (x - 1) * (π / 2) ≤ (y - 1) * (π / 2) := by nlinarith
    have := Real.sin_le_sin_of_le_of_le_pi_div_two h1 h2 h3
    linarith
  case sin_out =>
    simp only [Curve.shape]
    have hpi : (0 : ℝ) < π / 2 := by positivity
    have h1 : -(π / 2) ≤ x * (π / 2) := by nlinarith
    have h2 : y * (π / 2) ≤ π / 2 := by nlinarith
    have h3 : x * (π / 2) ≤ y * (π / 2) := by nlinarith
    exact Real.sin_le_sin_of_le_of_le_pi_div_two h1 h2 h3
  case sin_inout => simp [Curve.isSingleDirection] at hc
  case exp_in =>
    simp only [Curve.shape]
    by_cases hx0 : x = 0
    · rw [if_pos hx0]
      by_cases hyz : y = 0
      · rw [if_pos hyz]
      · rw [if_neg hyz]
        positivity
    · have hxpos : 0 < x := lt_of_le_of_ne hx (Ne.symm hx0)
      have hyz : y ≠ 0 := (lt_of_lt_of_le hxpos hxy).ne'
      rw [if_neg hx0, if_neg hyz]
      exact Real.rpow_le_rpow_of_exponent_le (by norm_num) (by linarith)
  case exp_out =>
    simp only [Curve.shape]
    by_cases hy1 : y = 1
    · rw [if_pos hy1]
      by_cases hxo : x = 1
      · rw [if_pos hxo]
      · rw [if_neg hxo]
        have hpos : (0 : ℝ) ≤ (2 : ℝ) ^ (-10 * x) := by positivity
        linarith
    · have hxo : x ≠ 1 := fun h => hy1 (le_antisymm hy (h ▸ hxy))
      rw [if_neg hxo, if_neg hy1]
      have := Real.rpow_le_rpow_of_exponent_le (by norm_num : (1 : ℝ) ≤ 2)
        (by linarith : (-10) * y ≤ -10 * x)
      linarith
  case exp_inout => simp [Curve.isSingleDirection] at hc

/-- C5: for every single-direction curve (`linear`, `quad_in`, `quad_out`,
`cubic_in`, `cubic_out`, `quartic_in`, `quartic_out`, `sin_in`, `sin_out`,
`exp_in`, `exp_out`) and every `start`, `end`, `steps ≥ 1`, the produced
sequence is monotonic in the direction of `end - start`: whenever the
`i`-th and `j`-th produced values are `u` and `v` with `i ≤ j`, we have
`u ≤ v` if `start ≤ end` and `v ≤ u` if `end ≤ start`. -/
theorem single_direction_monotone (c : Curve) (hc : c.isSingleDirection = true)
    (s e : ℝ) (n i j : ℕ)
    (h1 : 1 ≤ i) (h2 : i ≤ j) (h3 : j ≤ n) (h4 : n < u64size) (u v : ℝ)
    (hu : outAt c.shape (mkEaser s e n) (i - 1) = some u)
    (hv : outAt c.shape (mkEaser s e n) (j - 1) = some v) :
    (s ≤ e → u ≤ v) ∧ (e ≤ s → v ≤ u) := by
  rw [outAt_eq] at hu hv
  have hi : i - 1 + 1 = i := by omega
  have hj : j - 1 + 1 = j := by omega
  have him : i % u64size = i := Nat.mod_eq_of_lt (by omega)
  have hjm : j % u64size = j := Nat.mod_eq_of_lt (by omega)
  rw [hi, him, if_neg (by omega)] at hu
  rw [hj, hjm, if_neg (by omega)] at hv
  have hu2 : u = c.shape ((i : ℝ) / (n : ℝ)) * (e - s) + s :=
    (Option.some_inj.mp hu).symm
  have hv2 : v = c.shape ((j : ℝ) / (n : ℝ)) * (e - s) + s :=
    (Option.some_inj.mp hv).symm
  have hn0 : (0 : ℝ) < (n : ℝ) := by
    exact_mod_cast (by omega : 0 < n)
  have hdivs : (i : ℝ) / (n : ℝ) ≤ (j : ℝ) / (n : ℝ) := by
    rw [div_le_div_iff_of_pos_right hn0]
    exact_mod_cast h2
  have hmono : c.shape ((i : ℝ) / (n : ℝ)) ≤ c.shape ((j : ℝ) / (n : ℝ)) := by
    apply shape_mono_single c hc
    · positivity
    · exact hdivs
    · rw [div_le_one hn0]
      exact_mod_cast h3
  constructor
  · intro hse
    rw [hu2, hv2]
    have := mul_le_mul_of_nonneg_right hmono (by linarith : (0 : ℝ) ≤ e - s)
    linarith
  · intro hes
    rw [hu2, hv2]
    have := mul_le_mul_of_nonpos_right hmono (by linarith : e - s ≤ 0)
    linarith

theorem single_direction_monotone_witness :
    ((0 : ℝ) ≤ 1 → (1 / 2 : ℝ) ≤ 1) ∧ ((1 : ℝ) ≤ 0 → (1 : ℝ) ≤ 1 / 2) := by
  have hu : outAt (Curve.shape .linear) (mkEaser 0 1 2) (1 - 1) = some (1 / 2) := by
    rw [outAt_eq, one_mod_u64size]
    norm_num [Curve.shape]
  have hv : outAt (Curve.shape .linear) (mkEaser 0 1 2) (2 - 1) = some 1 := by
    rw [outAt_eq]
    have h2 : (1 + 1) % u64size = 2 := Nat.mod_eq_of_lt (by unfold u64size; norm_num)
    rw [h2]
    norm_num [Curve.shape]
  exact single_direction_monotone .linear rfl 0 1 2 1 2 (le_refl 1) (by norm_num)
    (by norm_num) (by norm_num [u64size]) (1 / 2) 1 hu hv
